import Mathlib

set_option autoImplicit false

/-
Verification development for the Arkham hot-wallet crawler front end
(`app.js`, with `cloudflare-worker.js` as the forwarding collaborator).

The JavaScript source is shallowly embedded: every definition below mirrors a
function or a state component of `app.js`.  Asynchronous control flow
(the concurrency limiter and the per-chain crawl loop) is embedded as an
explicit state machine driven by external completion events, and the network
is an oracle parameter.  Browser platform collaborators (`fetch`, `new URL`)
are abstracted by function parameters; everything written by the repository
itself is translated directly.
-/

namespace HotWallet

/-- Claim support: one output row as built by `extractHotWallet` in app.js
(fields `chain`, `address`, `arkm_url`, `label`). -/
structure Row where
  chain : String
  address : String
  arkm_url : String
  label : String
deriving DecidableEq, Repr

/-- Claim support: the nested address-information object carried by a
transfer record (`addrInfo` in app.js).  `entityName` models
`addrInfo?.arkhamEntity?.name` and `labelName` models
`addrInfo?.arkhamLabel?.name`; `none` stands for a JavaScript
`undefined`, covering absent or malformed counterparty fields. -/
structure AddrInfo where
  address : String
  chain : String
  entityName : Option String
  labelName : Option String
deriving DecidableEq, Repr

/-- Claim support: one transfer record of a page.  The crawl loop prefers
`tx.fromAddressOwner` and falls back to `tx.fromAddress` (app.js lines
319 to 325); `none` models an absent field. -/
structure Transfer where
  fromAddressOwner : Option AddrInfo
  fromAddress : Option AddrInfo
deriving DecidableEq, Repr

/-- Per-chain accumulation map (`merged` in `crawlOneChain`): a JavaScript
object used as an ordered dictionary.  Entries are kept in insertion
order; string keys such as `address@chain` are never integer-like, so
JavaScript preserves insertion order for them. -/
abbrev JsMap := List (String × Row)

/-- Keys of the accumulation map, in insertion order (`Object.keys`). -/
def keysJs (m : JsMap) : List String := m.map Prod.fst

/-- Values of the accumulation map, in insertion order (`Object.values`). -/
def valuesJs (m : JsMap) : List Row := m.map Prod.snd

/-- JavaScript object assignment `target[key] = v`: if the key is present
its value is replaced in place (the entry keeps its position), otherwise
the new entry is appended at the end. -/
def insertJs : JsMap → String → Row → JsMap
  | [], k, v => [(k, v)]
  | p :: rest, k, v => if p.1 = k then (k, v) :: rest else p :: insertJs rest k v

/-- Property lookup `target[key]` on the accumulation map. -/
def lookupJs : JsMap → String → Option Row
  | [], _ => none
  | p :: rest, k => if p.1 = k then some p.2 else lookupJs rest k

/-- URL of a discovered address on the explorer, as built inline in
`extractHotWallet`. -/
def arkmUrl (address : String) : String :=
  "https://intel.arkm.com/explorer/address/" ++ address

/-- Embedding of `extractHotWallet(addrInfo, target, expectedEntityName)`
(app.js lines 112 to 126).  The JavaScript mutates `target` in place; the
embedding returns the updated map.  The function is total: any input that
fails the guard leaves the map unchanged and no error is possible. -/
def extractHotWallet (addrInfo : Option AddrInfo) (target : JsMap)
    (expectedEntityName : String) : JsMap :=
  match addrInfo with
  | none => target
  | some a =>
    if a.entityName = some expectedEntityName ∧ a.labelName = some "Hot Wallet" then
      insertJs target (a.address ++ "@" ++ a.chain)
        ⟨a.chain, a.address, arkmUrl a.address, "Hot Wallet"⟩
    else target

/-- Application of a whole sequence of extraction attempts to one chain
accumulation map, starting from the empty map: `extractHotWallet` is
the only writer of the map during a crawl. -/
def applyInserts (ops : List (Option AddrInfo)) (n : String) : JsMap :=
  ops.foldl (fun m info => extractHotWallet info m n) []

/-- Relation between an accumulation map `o` and a later state `m` of the
same map: the first entries of `m` carry exactly the keys of `o` in
order (values possibly overwritten in place), and every further entry
carries a key that `o` did not have.  JavaScript object assignment
preserves this shape, which is what makes
`Object.values(merged).slice(-deltaNew)` pick out the new rows. -/
def MapExt (o m : JsMap) : Prop :=
  ∃ pre post, m = pre ++ post ∧ keysJs pre = keysJs o ∧ ∀ p ∈ post, p.1 ∉ keysJs o

/-- Choice of counterparty info for one transfer: `tx.fromAddressOwner`
if truthy, else `tx.fromAddress` (app.js lines 320 to 324). -/
def counterparty (tx : Transfer) : Option AddrInfo :=
  match tx.fromAddressOwner with
  | some a => some a
  | none => tx.fromAddress

/-- Processing of one page of transfers into the accumulation map:
`transfers.forEach(tx => extractHotWallet(..., merged, entity.name))`. -/
def processTransfers (merged : JsMap) (ts : List Transfer) (n : String) : JsMap :=
  ts.foldl (fun m tx => extractHotWallet (counterparty tx) m n) merged

/-- Rows carried by the incremental-results event of one page:
`Object.values(merged).slice(-deltaNew)` where
`deltaNew = found - before` (app.js lines 326 to 331).  `before` is the
key count before the page, `merged2` the map after the page. -/
def pageEvent (before : Nat) (merged2 : JsMap) : List Row :=
  (valuesJs merged2).drop (merged2.length - (merged2.length - before))

/-- Outcome of the per-page `for` loop of `crawlOneChain`: the final map,
the sequence of increments applied to `completedPages` (one entry per
`completedPages += _` statement, in order), the emitted
incremental-results events, and the error thrown inside the loop, if
any. -/
structure PageLoopResult where
  merged : JsMap
  trace : List Nat
  events : List (List Row)
  err : Option String
deriving DecidableEq, Repr

/-- Embedding of the body of the `for(let i=0;i<pages;i++)` loop of
`crawlOneChain` (app.js lines 304 to 340), iterating over the list of
remaining page indices.  A fetch error (timeout included) aborts the
loop and is recorded in `err`; a page with zero transfers advances the
progress counter by the number of remaining pages (`pages - i`) and
stops; otherwise the page is merged, an incremental event is emitted
when new keys appeared, and the counter advances by 1. -/
def crawlLoop (fetch : Nat → Except String (List Transfer)) (n : String)
    (pages : Nat) : List Nat → JsMap → PageLoopResult
  | [], merged => ⟨merged, [], [], none⟩
  | i :: rest, merged =>
    match fetch i with
    | .error e => ⟨merged, [], [], some e⟩
    | .ok transfers =>
      if transfers.length = 0 then ⟨merged, [pages - i], [], none⟩
      else
        let before := merged.length
        let merged2 := processTransfers merged transfers n
        let deltaNew := merged2.length - before
        let evs := if 0 < deltaNew then [pageEvent before merged2] else []
        let r := crawlLoop fetch n pages rest merged2
        ⟨r.merged, 1 :: r.trace, evs ++ r.events, r.err⟩

/-- Full per-page loop of one chain, pages `0` to `pages - 1`, starting
from the empty accumulation map (`const merged = \x7b\x7d`). -/
def crawlPages (fetch : Nat → Except String (List Transfer)) (n : String)
    (pages : Nat) : PageLoopResult :=
  crawlLoop fetch n pages (List.range pages) []

/-- Terminal status line of one chain: the success branch reports the
number of addresses found, the catch branch reports the error message. -/
inductive ChainStatus where
  | success (count : Nat)
  | failed (msg : String)
deriving DecidableEq, Repr

/-- Outcome of `crawlOneChain` for one chain: the accumulation map at the
end of the loop, the progress increments, the incremental events, the
terminal status, and the rows pushed into `allResults`.  The enclosing
`try ... catch` makes the embedding total: a thrown error becomes a
`failed` status instead of propagating, and in that case nothing is
pushed (the `allResults.push(...)` on line 342 is only reached on the
success path). -/
structure ChainResult where
  merged : JsMap
  trace : List Nat
  events : List (List Row)
  status : ChainStatus
  pushed : List Row
deriving DecidableEq, Repr

/-- Embedding of `crawlOneChain` (app.js lines 298 to 351) for one chain,
with the network as the oracle `fetch` (page index to thrown error or
transfer list). -/
def crawlOneChain (fetch : Nat → Except String (List Transfer)) (n : String)
    (pages : Nat) : ChainResult :=
  let r := crawlPages fetch n pages
  match r.err with
  | some e => ⟨r.merged, r.trace, r.events, .failed e, []⟩
  | none => ⟨r.merged, r.trace, r.events, .success (valuesJs r.merged).length,
      valuesJs r.merged⟩

/-- Quiescent outcome of one crawl run (`runCrawler`, app.js lines 283 to
357): the state of `allResults` and of the progress counters after every
chain task has settled.  Each chain increments `completedChains` in its
`finally` block exactly once; rows are appended in chain-completion
order, fixed here to input order (one admissible completion order - the
facts proved below are insensitive to it). -/
structure RunResult where
  allResults : List Row
  completedChains : Nat
  totalChains : Nat
  completedPages : Nat
  totalPages : Nat
deriving DecidableEq, Repr

/-- Quiescent run outcome over a list of chains, with `fetchFor` giving
each chain its page oracle. -/
def runCrawlerFinal (chains : List String)
    (fetchFor : String → Nat → Except String (List Transfer)) (n : String)
    (pages : Nat) : RunResult :=
  let rs := chains.map (fun c => crawlOneChain (fetchFor c) n pages)
  ⟨(rs.map (fun r => r.pushed)).flatten, rs.length, chains.length,
    (rs.map (fun r => r.trace.sum)).sum, chains.length * pages⟩

/-- Response object of a completed HTTP request; only the status matters
for the claims (the body is opaque to the transport layer). -/
structure Resp where
  status : Nat
deriving DecidableEq, Repr

/-- Outcome of one `fetch` call: a settled response (any status code,
error statuses included) or a rejected promise carrying an error
message (network failure, CORS failure or abort). -/
inductive NetOutcome where
  | ok (r : Resp)
  | fail (e : String)
deriving DecidableEq, Repr

/-- Request headers as an ordered name-value list (the `Headers` object;
the application always uses exactly-cased names). -/
abbrev HeaderList := List (String × String)

/-- Network oracle: the platform `fetch`, as a function of the request
URL and headers. -/
abbrev Net := String → HeaderList → NetOutcome

/-- Lookup `headers.get(name)`. -/
def headersGet : HeaderList → String → Option String
  | [], _ => none
  | p :: rest, k => if p.1 = k then some p.2 else headersGet rest k

/-- Removal `headers.delete(name)`. -/
def headersDelete (hs : HeaderList) (k : String) : HeaderList :=
  hs.filter (fun p => p.1 ≠ k)

/-- Replacement `headers.set(name, value)`: at most one entry per name
remains, holding the new value. -/
def headersSet (hs : HeaderList) (k v : String) : HeaderList :=
  headersDelete hs k ++ [(k, v)]

/-- Credential-header migration performed before the proxy retry
(app.js lines 33 to 37): a truthy `API-Key` value is deleted and
re-installed under `X-API-Key`.  A missing header, or the falsy empty
string, is left alone. -/
def moveApiKey (hs : HeaderList) : HeaderList :=
  match headersGet hs "API-Key" with
  | some v => if v = "" then hs else headersSet (headersDelete hs "API-Key") "X-API-Key" v
  | none => hs

/-- Parsed URL object, as produced by the platform `new URL(...)`: an
opaque base plus its query parameters.  The WHATWG parser itself is a
platform collaborator and enters the embedding as a parameter. -/
structure UrlObj where
  base : String
  params : List (String × String)
deriving DecidableEq, Repr

/-- Query-parameter replacement `searchParams.set(key, value)`. -/
def setParamJs (ps : List (String × String)) (k v : String) : List (String × String) :=
  if k ∈ ps.map Prod.fst then ps.map (fun p => if p.1 = k then (k, v) else p)
  else ps ++ [(k, v)]

/-- The `setParam` operation lifted to a parsed URL. -/
def UrlObj.setParam (u : UrlObj) (k v : String) : UrlObj :=
  ⟨u.base, setParamJs u.params k v⟩

/-- Embedding of `buildProxyUrl(proxyBase, target)` (app.js lines 13 to
21): parse the proxy base (a throwing `new URL` is a `none` from the
parser parameter), set the `url` query parameter to the target, and
render the result; a parse failure yields `null`. -/
def buildProxyUrl (parseUrl : String → Option UrlObj) (render : UrlObj → String)
    (proxyBase target : String) : Option String :=
  match parseUrl proxyBase with
  | some u => some (render (u.setParam "url" target))
  | none => none

/-- Result of `fetchWithProxyFirst` together with the trace of requests
actually issued, in order (each as URL plus headers). -/
structure FetchTrace where
  result : Except String Resp
  requests : List (String × HeaderList)

/-- Embedding of `fetchWithProxyFirst(url, options, proxy)` (app.js lines
23 to 43).  The direct attempt runs first; a settled response of any
status is returned as is.  Only a rejection falls back: when a truthy
proxy base is configured and parses, the request is retried exactly once
through the proxy with the target embedded as the `url` parameter and
the credential header migrated; otherwise the original error
propagates. -/
def fetchWithProxyFirst (net : Net) (parseUrl : String → Option UrlObj)
    (render : UrlObj → String) (url : String) (hs : HeaderList)
    (proxy : Option String) : FetchTrace :=
  match net url hs with
  | .ok r => ⟨.ok r, [(url, hs)]⟩
  | .fail e =>
    match proxy with
    | some p =>
      if p = "" then ⟨.error e, [(url, hs)]⟩
      else
        match buildProxyUrl parseUrl render p url with
        | some proxied =>
          let hs2 := moveApiKey hs
          match net proxied hs2 with
          | .ok r => ⟨.ok r, [(url, hs), (proxied, hs2)]⟩
          | .fail e2 => ⟨.error e2, [(url, hs), (proxied, hs2)]⟩
        | none => ⟨.error e, [(url, hs)]⟩
    | none => ⟨.error e, [(url, hs)]⟩

/-- Event-loop state of one `mapWithConcurrency(items, limit, task)` call
(app.js lines 93 to 110).  `nextIndex`, `running` and `results` mirror
the closure variables (`running` lists in-flight task indices in
insertion order; a slot of `results` is `none` while unassigned, exactly
like a hole of `new Array(n)`).  `waiters` holds, in first-in first-out
order, the `Promise.race(running)` snapshot of every starter currently
suspended at the `await`; `startersDone` counts starters whose `runOne`
recursion has bottomed out, i.e. whose promise has resolved. -/
structure MwcState (α β : Type) where
  items : List α
  limit : Nat
  nextIndex : Nat
  running : List Nat
  results : List (Option β)
  waiters : List (List Nat)
  startersDone : Nat
deriving DecidableEq, Repr

/-- Synchronous execution of one `runOne()` call until its starter either
bottoms out (`nextIndex >= items.length`, resolving the starter) or
suspends at `await Promise.race(running)` (parking its race snapshot in
`waiters`).  Each iteration claims `current = nextIndex++`, starts the
task (adding it to `running`), checks `running.size >= limit`, and only
when that check fails recurses immediately.  The fuel argument only
bounds the recursion and is always sufficient, because `nextIndex`
grows by one per iteration. -/
def runOneFuel {α β : Type} : Nat → MwcState α β → MwcState α β
  | 0, s => s
  | fuel + 1, s =>
    if s.nextIndex < s.items.length then
      let current := s.nextIndex
      let running2 := s.running ++ [current]
      if s.limit ≤ running2.length then
        { s with nextIndex := current + 1, running := running2,
                 waiters := s.waiters ++ [running2] }
      else
        runOneFuel fuel { s with nextIndex := current + 1, running := running2 }
    else { s with startersDone := s.startersDone + 1 }

/-- One `runOne()` call, with enough fuel for the whole item list. -/
def runOne {α β : Type} (s : MwcState α β) : MwcState α β :=
  runOneFuel (s.items.length + 1 - s.nextIndex) s

/-- Iteration helper: apply `f` a given number of times. -/
def applyN {σ : Type} (f : σ → σ) : Nat → σ → σ
  | 0, s => s
  | n + 1, s => applyN f n (f s)

/-- Initial state of `mapWithConcurrency` before any starter runs. -/
def mwcInit {α : Type} (β : Type) (items : List α) (limit : Nat) : MwcState α β :=
  ⟨items, limit, 0, [], List.replicate items.length none, [], 0⟩

/-- Synchronous start phase of `mapWithConcurrency`:
`Array(Math.min(limit, items.length)).fill(0).map(runOne)` runs
`min limit items.length` starter calls back to back, none of the
(asynchronous) tasks having had a chance to settle yet. -/
def mwcStart {α : Type} (β : Type) (items : List α) (limit : Nat) : MwcState α β :=
  applyN runOne (min limit items.length) (mwcInit β items limit)

/-- External completion event: the in-flight task `t` settles with the
worker result `f t` (`f t` stands for `task(items[t], t)`).  Its
`finally` removes it from `running` and its slot assignment
`results[t] = ...` lands; then every starter whose race snapshot
contains `t` wakes, in first-in first-out order, and synchronously runs
`runOne()` again. -/
def completeTask {α β : Type} (f : Nat → β) (s : MwcState α β) (t : Nat) :
    MwcState α β :=
  if t ∈ s.running then
    let wokenCount := (s.waiters.filter (fun w => t ∈ w)).length
    let s1 : MwcState α β :=
      { s with running := s.running.erase t,
               results := s.results.set t (some (f t)),
               waiters := s.waiters.filter (fun w => t ∉ w) }
    applyN runOne wokenCount s1
  else s

/-- Resolution condition of the promise returned by
`mapWithConcurrency`: `await Promise.all(starters)` fires as soon as
every one of the `min limit items.length` starters has resolved; the
`results` array is returned in whatever state it is in at that moment. -/
def mwcResolved {α β : Type} (s : MwcState α β) : Bool :=
  s.startersDone = min s.limit s.items.length

/-- Value of `Number(input.value)` for the page-size and page-count text
inputs: `nan` models a non-numeric string, `int n` a numeric one
(an empty input gives `Number("") = 0`). -/
inductive JsNum where
  | nan
  | int (n : Int)
deriving DecidableEq, Repr

/-- JavaScript `x || d` applied to `Number(input.value)`: `NaN` and `0`
are falsy and fall back to the default. -/
def jsOrDefault (v : JsNum) (d : Int) : Int :=
  match v with
  | .nan => d
  | .int n => if n = 0 then d else n

/-- Page-size sanitization on run start (app.js line 516):
`Math.max(1, Math.min(1000, Number(limitInput.value)||500))`. -/
def initLimit (v : JsNum) : Int :=
  max 1 (min 1000 (jsOrDefault v 500))

/-- Page-count sanitization on run start (app.js line 517):
`Math.max(1, Math.min(10, Number(pagesInput.value)||3))`. -/
def initPages (v : JsNum) : Int :=
  max 1 (min 10 (jsOrDefault v 3))

/-- Decision of the quoting regex `/[",\n]/` of `toCSV` on one field. -/
def needsQuote (s : List Char) : Bool :=
  s.any (fun c => c = '\"' ∨ c = ',' ∨ c = '\n')

/-- Quote doubling `String(v).replace(/"/g, s)` with `s` two quote
characters, as in `toCSV`. -/
def escQuotes : List Char → List Char
  | [] => []
  | c :: rest =>
    if c = '\"' then '\"' :: '\"' :: escQuotes rest else c :: escQuotes rest

/-- Field encoding of `toCSV` (app.js line 263): a field containing a
comma, a double quote or a newline is wrapped in double quotes with
internal quotes doubled; any other field is emitted verbatim. -/
def encodeField (s : List Char) : List Char :=
  if needsQuote s then '\"' :: (escQuotes s ++ ['\"']) else s

/-- Row encoding of `toCSV`: the encoded fields joined with a comma
separator, as the inner `.join` does. -/
def encodeRow : List (List Char) → List Char
  | [] => []
  | [f] => encodeField f
  | f :: rest => encodeField f ++ ',' :: encodeRow rest

/-- Field order of one CSV line: `[r.chain, r.address, r.arkm_url,
r.label]` (app.js line 262). -/
def rowFields (r : Row) : List (List Char) :=
  [r.chain.data, r.address.data, r.arkm_url.data, r.label.data]

/-- One encoded CSV line for one row. -/
def rowLine (r : Row) : String :=
  String.mk (encodeRow (rowFields r))

/-- Embedding of `toCSV(rows)` (app.js lines 259 to 267): the fixed
header line followed by one encoded line per row, joined with
newlines. -/
def toCSV (rows : List Row) : String :=
  String.mk (List.intercalate ['\n']
    ("chain,address,arkm_url,label".data :: rows.map (fun r => encodeRow (rowFields r))))

/-- RFC-4180 style parse of one quoted field body, after the opening
quote: a doubled quote is a literal quote, a lone quote closes the
field.  Returns the field and the unconsumed remainder. -/
def parseQuoted : List Char → List Char × List Char
  | [] => ([], [])
  | c :: rest =>
    if c = '\"' then
      match rest with
      | c2 :: rest2 =>
        if c2 = '\"' then
          let r := parseQuoted rest2
          ('\"' :: r.1, r.2)
        else ([], rest)
      | [] => ([], [])
    else
      let r := parseQuoted rest
      (c :: r.1, r.2)

/-- Parse of one unquoted field: everything up to the next comma. -/
def parseUnquoted : List Char → List Char × List Char
  | [] => ([], [])
  | c :: rest =>
    if c = ',' then ([], c :: rest)
    else
      let r := parseUnquoted rest
      (c :: r.1, r.2)

/-- Parse of one field: quoted when it opens with a double quote,
unquoted otherwise. -/
def parseField (cs : List Char) : List Char × List Char :=
  match cs with
  | c :: rest => if c = '\"' then parseQuoted rest else parseUnquoted (c :: rest)
  | [] => ([], [])

/-- Remainder returned by `parseQuoted` never grows. -/
theorem parseQuoted_snd_length_le : ∀ cs : List Char,
    (parseQuoted cs).2.length ≤ cs.length
  | [] => by simp [parseQuoted]
  | c :: rest => by
    by_cases h : c = '\"'
    · subst h
      match rest with
      | [] => simp [parseQuoted]
      | c2 :: rest2 =>
        by_cases h2 : c2 = '\"'
        · subst h2
          have ih := parseQuoted_snd_length_le rest2
          simp [parseQuoted]
          omega
        · simp [parseQuoted, h2]
    · have ih := parseQuoted_snd_length_le rest
      rw [parseQuoted.eq_def]
      simp [h]
      omega

/-- Remainder returned by `parseUnquoted` never grows. -/
theorem parseUnquoted_snd_length_le : ∀ cs : List Char,
    (parseUnquoted cs).2.length ≤ cs.length
  | [] => by simp [parseUnquoted]
  | c :: rest => by
    by_cases h : c = ','
    · simp [parseUnquoted, h]
    · have ih := parseUnquoted_snd_length_le rest
      simp [parseUnquoted, h]
      omega

/-- Remainder returned by `parseField` never grows. -/
theorem parseField_snd_length_le (cs : List Char) :
    (parseField cs).2.length ≤ cs.length := by
  match cs with
  | [] => simp [parseField]
  | c :: rest =>
    by_cases h : c = '\"'
    · simp only [parseField, h, if_true]
      have := parseQuoted_snd_length_le rest
      simp at this ⊢
      omega
    · simp only [parseField, h, if_false]
      exact parseUnquoted_snd_length_le (c :: rest)

/-- Parse of one CSV line into its fields: fields separated by commas,
each field quoted or unquoted. -/
def parseLine (cs : List Char) : List (List Char) :=
  match h : (parseField cs).2 with
  | ',' :: rest => (parseField cs).1 :: parseLine rest
  | [] => [(parseField cs).1]
  | _ :: _ => [(parseField cs).1]
termination_by cs.length
decreasing_by
  have hle := parseField_snd_length_le cs
  rw [h] at hle
  simp at hle
  omega

/-- String-level CSV line parser. -/
def parseCsvLine (s : String) : List String :=
  (parseLine s.data).map String.mk

/-- Unfolding lemma: keys of a cons. -/
theorem keysJs_cons (p : String × Row) (l : JsMap) :
    keysJs (p :: l) = p.1 :: keysJs l := rfl

/-- Unfolding lemma: keys of an append. -/
theorem keysJs_append (l1 l2 : JsMap) :
    keysJs (l1 ++ l2) = keysJs l1 ++ keysJs l2 := by
  simp [keysJs]

/-- Unfolding lemma: values of a cons. -/
theorem valuesJs_cons (p : String × Row) (l : JsMap) :
    valuesJs (p :: l) = p.2 :: valuesJs l := rfl

/-- Unfolding lemma: values of an append. -/
theorem valuesJs_append (l1 l2 : JsMap) :
    valuesJs (l1 ++ l2) = valuesJs l1 ++ valuesJs l2 := by
  simp [valuesJs]

/-- Assignment to a key already present replaces in place and keeps the
key sequence unchanged. -/
theorem keysJs_insertJs_mem : ∀ (m : JsMap) (k : String) (v : Row),
    k ∈ keysJs m → keysJs (insertJs m k v) = keysJs m
  | [], k, v, h => by simp [keysJs] at h
  | p :: rest, k, v, h => by
    by_cases hk : p.1 = k
    · simp only [insertJs, if_pos hk, keysJs_cons]
      rw [hk]
    · have hm : k ∈ keysJs rest := by
        rw [keysJs_cons] at h
        rcases List.mem_cons.mp h with h1 | h2
        · exact absurd h1.symm hk
        · exact h2
      simp only [insertJs, if_neg hk, keysJs_cons]
      rw [keysJs_insertJs_mem rest k v hm]

/-- Assignment to an absent key appends the new entry at the end. -/
theorem keysJs_insertJs_not_mem : ∀ (m : JsMap) (k : String) (v : Row),
    k ∉ keysJs m → keysJs (insertJs m k v) = keysJs m ++ [k]
  | [], k, v, _ => by simp [insertJs, keysJs]
  | p :: rest, k, v, h => by
    have hk : ¬ p.1 = k := by
      intro he
      exact h (by rw [keysJs_cons, he]; exact List.mem_cons_self k (keysJs rest))
    have hm : k ∉ keysJs rest := by
      intro hmem
      exact h (by rw [keysJs_cons]; exact List.mem_cons_of_mem _ hmem)
    simp only [insertJs, if_neg hk, keysJs_cons, List.cons_append]
    rw [keysJs_insertJs_not_mem rest k v hm]

/-- Key sequences determine map lengths. -/
theorem length_keysJs (m : JsMap) : (keysJs m).length = m.length := by
  simp [keysJs]

/-- Assignment never removes entries. -/
theorem length_insertJs_ge (m : JsMap) (k : String) (v : Row) :
    m.length ≤ (insertJs m k v).length := by
  by_cases h : k ∈ keysJs m
  · have := keysJs_insertJs_mem m k v h
    have : (keysJs (insertJs m k v)).length = (keysJs m).length := by rw [this]
    simp [length_keysJs] at this
    omega
  · have := keysJs_insertJs_not_mem m k v h
    have : (keysJs (insertJs m k v)).length = (keysJs m).length + 1 := by
      rw [this]; simp
    simp [length_keysJs] at this
    omega

/-- Key distinctness is preserved by assignment: a JavaScript object can
never hold two entries with the same key. -/
theorem nodup_keysJs_insertJs (m : JsMap) (k : String) (v : Row)
    (h : (keysJs m).Nodup) : (keysJs (insertJs m k v)).Nodup := by
  by_cases hk : k ∈ keysJs m
  · rw [keysJs_insertJs_mem m k v hk]; exact h
  · rw [keysJs_insertJs_not_mem m k v hk]
    simp [List.nodup_append]
    exact ⟨h, hk⟩

/-- Lookup after assignment returns the assigned value
(last write wins). -/
theorem lookupJs_insertJs_self : ∀ (m : JsMap) (k : String) (v : Row),
    lookupJs (insertJs m k v) k = some v
  | [], k, v => by simp [insertJs, lookupJs]
  | p :: rest, k, v => by
    by_cases hk : p.1 = k
    · simp [insertJs, hk, lookupJs]
    · simp [insertJs, hk, lookupJs]
      exact lookupJs_insertJs_self rest k v

/-- The extractor either leaves the map unchanged or performs exactly one
assignment with the qualifying row. -/
theorem extract_eq_or_insert (info : Option AddrInfo) (m : JsMap) (n : String) :
    extractHotWallet info m n = m
    ∨ ∃ a, info = some a
        ∧ extractHotWallet info m n
          = insertJs m (a.address ++ "@" ++ a.chain)
              ⟨a.chain, a.address, arkmUrl a.address, "Hot Wallet"⟩ := by
  match info with
  | none => left; rfl
  | some a =>
    by_cases hc : a.entityName = some n ∧ a.labelName = some "Hot Wallet"
    · right
      exact ⟨a, rfl, by simp [extractHotWallet, hc]⟩
    · left
      simp [extractHotWallet, hc]

/-- Key distinctness is preserved by the extractor. -/
theorem nodup_keysJs_extract (info : Option AddrInfo) (m : JsMap) (n : String)
    (h : (keysJs m).Nodup) : (keysJs (extractHotWallet info m n)).Nodup := by
  rcases extract_eq_or_insert info m n with he | ⟨a, _, he⟩
  · rw [he]; exact h
  · rw [he]; exact nodup_keysJs_insertJs _ _ _ h

/-- Key distinctness is preserved by any fold of extractions. -/
theorem nodup_keysJs_foldl : ∀ (ops : List (Option AddrInfo)) (m : JsMap) (n : String),
    (keysJs m).Nodup →
    (keysJs (ops.foldl (fun m info => extractHotWallet info m n) m)).Nodup
  | [], m, n, h => h
  | info :: rest, m, n, h => by
    simp only [List.foldl_cons]
    exact nodup_keysJs_foldl rest _ n (nodup_keysJs_extract info m n h)

/-- Assignment to a key present in the left part of an append happens
inside the left part. -/
theorem insertJs_append_left : ∀ (l1 l2 : JsMap) (k : String) (v : Row),
    k ∈ keysJs l1 → insertJs (l1 ++ l2) k v = insertJs l1 k v ++ l2
  | [], _, k, _, h => by simp [keysJs] at h
  | p :: rest, l2, k, v, h => by
    by_cases hk : p.1 = k
    · simp [insertJs, hk]
    · have hm : k ∈ keysJs rest := by
        rw [keysJs_cons] at h
        rcases List.mem_cons.mp h with h1 | h2
        · exact absurd h1.symm hk
        · exact h2
      simp only [List.cons_append, insertJs, if_neg hk]
      show p :: insertJs (rest ++ l2) k v = p :: (insertJs rest k v ++ l2)
      rw [insertJs_append_left rest l2 k v hm]

/-- Assignment to a key absent from the left part of an append happens
inside the right part. -/
theorem insertJs_append_right : ∀ (l1 l2 : JsMap) (k : String) (v : Row),
    k ∉ keysJs l1 → insertJs (l1 ++ l2) k v = l1 ++ insertJs l2 k v
  | [], _, _, _, _ => by simp
  | p :: rest, l2, k, v, h => by
    have hk : ¬ p.1 = k := by
      intro he
      exact h (by rw [keysJs_cons, he]; exact List.mem_cons_self k (keysJs rest))
    have hm : k ∉ keysJs rest := by
      intro hmem
      exact h (by rw [keysJs_cons]; exact List.mem_cons_of_mem _ hmem)
    simp only [List.cons_append, insertJs, if_neg hk]
    show p :: insertJs (rest ++ l2) k v = p :: (rest ++ insertJs l2 k v)
    rw [insertJs_append_right rest l2 k v hm]

/-- Every entry of a map after an assignment carries either an old key or
the assigned key. -/
theorem mem_insertJs_fst : ∀ (l : JsMap) (k : String) (v : Row)
    (p : String × Row), p ∈ insertJs l k v → p.1 ∈ keysJs l ∨ p.1 = k
  | [], k, v, p, h => by
    simp [insertJs] at h
    right
    rw [h]
  | q :: rest, k, v, p, h => by
    by_cases hk : q.1 = k
    · simp only [insertJs, if_pos hk] at h
      rcases List.mem_cons.mp h with h1 | h2
      · right; rw [h1]
      · left
        rw [keysJs_cons]
        exact List.mem_cons_of_mem _ (List.mem_map_of_mem Prod.fst h2)
    · simp only [insertJs, if_neg hk] at h
      rcases List.mem_cons.mp h with h1 | h2
      · left
        rw [h1, keysJs_cons]
        exact List.mem_cons_self q.1 (keysJs rest)
      · rcases mem_insertJs_fst rest k v p h2 with h3 | h3
        · left
          rw [keysJs_cons]
          exact List.mem_cons_of_mem _ h3
        · right; exact h3

/-- The extension relation holds reflexively. -/
theorem mapExt_refl (o : JsMap) : MapExt o o :=
  ⟨o, [], by simp, rfl, by simp⟩

/-- The extension relation is preserved by assignment. -/
theorem mapExt_insertJs (o m : JsMap) (k : String) (v : Row)
    (h : MapExt o m) : MapExt o (insertJs m k v) := by
  obtain ⟨pre, post, rfl, hkeys, hpost⟩ := h
  by_cases hk : k ∈ keysJs pre
  · exact ⟨insertJs pre k v, post, insertJs_append_left pre post k v hk,
      by rw [keysJs_insertJs_mem pre k v hk]; exact hkeys, hpost⟩
  · refine ⟨pre, insertJs post k v, insertJs_append_right pre post k v hk,
      hkeys, ?_⟩
    intro p hp
    rcases mem_insertJs_fst post k v p hp with h1 | h2
    · obtain ⟨q, hq, hq1⟩ := List.mem_map.mp h1
      rw [← hq1]
      exact hpost q hq
    · rw [h2]
      rw [hkeys] at hk
      exact hk

/-- The extension relation is preserved by the extractor. -/
theorem mapExt_extract (o m : JsMap) (info : Option AddrInfo) (n : String)
    (h : MapExt o m) : MapExt o (extractHotWallet info m n) := by
  rcases extract_eq_or_insert info m n with he | ⟨a, _, he⟩
  · rw [he]; exact h
  · rw [he]; exact mapExt_insertJs o m _ _ h

/-- The extension relation is preserved by a whole page of transfers. -/
theorem mapExt_processTransfers (o : JsMap) (n : String) :
    ∀ (ts : List Transfer) (m : JsMap),
    MapExt o m → MapExt o (processTransfers m ts n)
  | [], m, h => h
  | tx :: rest, m, h => by
    simp only [processTransfers, List.foldl_cons]
    exact mapExt_processTransfers o n rest _
      (mapExt_extract o m (counterparty tx) n h)

/-- Structural consequences of the extension relation: the first entries
keep the old keys, the remaining entries carry only new keys, and the
`slice(-deltaNew)` of the value list is exactly the value list of those
remaining entries. -/
theorem mapExt_facts (o m : JsMap) (h : MapExt o m) :
    keysJs (m.take o.length) = keysJs o
    ∧ (∀ p ∈ m.drop o.length, p.1 ∉ keysJs o)
    ∧ pageEvent o.length m = valuesJs (m.drop o.length)
    ∧ (m.drop o.length).length = m.length - o.length := by
  obtain ⟨pre, post, rfl, hkeys, hpost⟩ := h
  have hlenpre : pre.length = o.length := by
    have := congrArg List.length hkeys
    simpa [keysJs] using this
  have htake : (pre ++ post).take o.length = pre :=
    List.take_left' hlenpre
  have hdrop : (pre ++ post).drop o.length = post :=
    List.drop_left' hlenpre
  have hlen : (pre ++ post).length = o.length + post.length := by
    simp [hlenpre]
  refine ⟨by rw [htake]; exact hkeys, by rw [hdrop]; exact hpost, ?_, ?_⟩
  · rw [hdrop]
    unfold pageEvent
    have h1 : (pre ++ post).length - ((pre ++ post).length - o.length) = o.length := by
      omega
    rw [h1, valuesJs_append]
    have hlenv : (valuesJs pre).length = o.length := by
      simpa [valuesJs] using hlenpre
    rw [List.drop_left' hlenv]
  · rw [hdrop]
    omega

/-- Sum bound for lists of bounded naturals. -/
theorem sum_le_length_mul : ∀ (l : List Nat) (b : Nat),
    (∀ x ∈ l, x ≤ b) → l.sum ≤ l.length * b
  | [], _, _ => by simp
  | x :: rest, b, h => by
    have hx : x ≤ b := h x (List.mem_cons_self x rest)
    have hr := sum_le_length_mul rest b (fun y hy => h y (List.mem_cons_of_mem x hy))
    simp only [List.sum_cons, List.length_cons]
    calc x + rest.sum ≤ b + rest.length * b := by omega
    _ = (rest.length + 1) * b := by ring

/-- Progress contribution of the remaining pages of one chain never
exceeds the number of remaining pages. -/
theorem crawlLoop_trace_sum_le
    (fetch : Nat → Except String (List Transfer)) (n : String) (pages : Nat) :
    ∀ (k i : Nat) (merged : JsMap), i + k ≤ pages →
    (crawlLoop fetch n pages (List.range' i k) merged).trace.sum ≤ pages - i
  | 0, i, merged, _ => by simp [crawlLoop]
  | k + 1, i, merged, h => by
    rw [List.range'_succ i k 1]
    show (crawlLoop fetch n pages (i :: List.range' (i + 1) k) merged).trace.sum
      ≤ pages - i
    match hf : fetch i with
    | .error e => simp [crawlLoop, hf]
    | .ok transfers =>
      by_cases hz : transfers.length = 0
      · simp [crawlLoop, hf, hz]
      · have ih := crawlLoop_trace_sum_le fetch n pages k (i + 1)
          (processTransfers merged transfers n) (by omega)
        simp only [crawlLoop, hf, if_neg hz]
        simp only [List.sum_cons]
        omega

/-- Exhaustion scenario for the remaining pages of one chain: every page
before `e` is non-empty, page `e` is empty, so the progress trace is one
unit per fetched non-empty page followed by the whole remainder at
once. -/
theorem crawlLoop_trace_exhaust
    (fetch : Nat → Except String (List Transfer)) (n : String) (pages e : Nat)
    (he : e < pages)
    (hne : ∀ j, j < e → ∃ ts, fetch j = .ok ts ∧ ts ≠ [])
    (hempty : fetch e = .ok []) :
    ∀ (k i : Nat) (merged : JsMap), i + k = pages → i ≤ e →
    (crawlLoop fetch n pages (List.range' i k) merged).trace
      = List.replicate (e - i) 1 ++ [pages - e]
  | 0, i, merged, hk, hie => by omega
  | k + 1, i, merged, hk, hie => by
    rw [List.range'_succ i k 1]
    show (crawlLoop fetch n pages (i :: List.range' (i + 1) k) merged).trace
      = List.replicate (e - i) 1 ++ [pages - e]
    by_cases hieq : i = e
    · subst hieq
      simp [crawlLoop, hempty]
    · have hilt : i < e := by omega
      obtain ⟨ts, hts, htsne⟩ := hne i hilt
      have hz : ¬ ts.length = 0 := by
        simpa using htsne
      have ih := crawlLoop_trace_exhaust fetch n pages e he hne hempty k (i + 1)
        (processTransfers merged ts n) (by omega) (by omega)
      simp only [crawlLoop, hts, if_neg hz]
      show 1 :: (crawlLoop fetch n pages (List.range' (i + 1) k)
          (processTransfers merged ts n)).trace
        = List.replicate (e - i) 1 ++ [pages - e]
      rw [ih]
      have : e - i = (e - (i + 1)) + 1 := by omega
      rw [this, List.replicate_succ]
      simp

/-- Error scenario for the remaining pages of one chain: every page
before `e` is non-empty, page `e` throws, so the loop records exactly
that error. -/
theorem crawlLoop_err_at
    (fetch : Nat → Except String (List Transfer)) (n : String) (pages e : Nat)
    (msg : String) (he : e < pages)
    (hne : ∀ j, j < e → ∃ ts, fetch j = .ok ts ∧ ts ≠ [])
    (herr : fetch e = .error msg) :
    ∀ (k i : Nat) (merged : JsMap), i + k = pages → i ≤ e →
    (crawlLoop fetch n pages (List.range' i k) merged).err = some msg
  | 0, i, merged, hk, hie => by omega
  | k + 1, i, merged, hk, hie => by
    rw [List.range'_succ i k 1]
    show (crawlLoop fetch n pages (i :: List.range' (i + 1) k) merged).err
      = some msg
    by_cases hieq : i = e
    · subst hieq
      simp [crawlLoop, herr]
    · have hilt : i < e := by omega
      obtain ⟨ts, hts, htsne⟩ := hne i hilt
      have hz : ¬ ts.length = 0 := by
        simpa using htsne
      have ih := crawlLoop_err_at fetch n pages e msg he hne herr k (i + 1)
        (processTransfers merged ts n) (by omega) (by omega)
      simp only [crawlLoop, hts, if_neg hz]
      exact ih

/-- Whole-chain form of the progress bound. -/
theorem crawlPages_trace_sum_le
    (fetch : Nat → Except String (List Transfer)) (n : String) (pages : Nat) :
    (crawlPages fetch n pages).trace.sum ≤ pages := by
  unfold crawlPages
  rw [List.range_eq_range' pages]
  have := crawlLoop_trace_sum_le fetch n pages pages 0 [] (by omega)
  simpa using this

/-- The status and trace of one chain do not depend on the branch of the
final match: the trace is shared, and a recorded error forces the failed
status with no pushed rows. -/
theorem crawlOneChain_trace (fetch : Nat → Except String (List Transfer))
    (n : String) (pages : Nat) :
    (crawlOneChain fetch n pages).trace = (crawlPages fetch n pages).trace := by
  unfold crawlOneChain
  rcases h : (crawlPages fetch n pages).err with _ | e <;> simp [h]

/-- Deleting a header name makes its lookup fail. -/
theorem headersGet_delete_self : ∀ (hs : HeaderList) (k : String),
    headersGet (headersDelete hs k) k = none
  | [], _ => rfl
  | p :: rest, k => by
    by_cases hk : p.1 = k
    · have hd : headersDelete (p :: rest) k = headersDelete rest k := by
        simp [headersDelete, List.filter_cons, hk]
      rw [hd]
      exact headersGet_delete_self rest k
    · have hd : headersDelete (p :: rest) k = p :: headersDelete rest k := by
        simp [headersDelete, List.filter_cons, hk]
      rw [hd]
      simp [headersGet, hk]
      exact headersGet_delete_self rest k

/-- Deleting one header name leaves the lookup of any other name
unchanged. -/
theorem headersGet_delete_ne : ∀ (hs : HeaderList) (k k' : String),
    k ≠ k' → headersGet (headersDelete hs k') k = headersGet hs k
  | [], _, _, _ => rfl
  | p :: rest, k, k', h => by
    by_cases hk : p.1 = k'
    · have hd : headersDelete (p :: rest) k' = headersDelete rest k' := by
        simp [headersDelete, List.filter_cons, hk]
      have hpk : ¬ p.1 = k := by rw [hk]; exact fun he => h he.symm
      rw [hd]
      simp [headersGet, hpk]
      exact headersGet_delete_ne rest k k' h
    · have hd : headersDelete (p :: rest) k' = p :: headersDelete rest k' := by
        simp [headersDelete, List.filter_cons, hk]
      rw [hd]
      by_cases hpk : p.1 = k
      · simp [headersGet, hpk]
      · simp [headersGet, hpk]
        exact headersGet_delete_ne rest k k' h

/-- Lookup walks past a prefix that does not contain the name. -/
theorem headersGet_append_right : ∀ (l1 l2 : HeaderList) (k : String),
    headersGet l1 k = none → headersGet (l1 ++ l2) k = headersGet l2 k
  | [], _, _, _ => rfl
  | p :: rest, l2, k, h => by
    by_cases hk : p.1 = k
    · simp [headersGet, hk] at h
    · simp only [headersGet, hk, if_neg hk] at h ⊢
      show headersGet (rest ++ l2) k = headersGet l2 k
      exact headersGet_append_right rest l2 k h

/-- The credential migration of the proxy retry moves a truthy `API-Key`
value to `X-API-Key` and removes the original header. -/
theorem moveApiKey_spec (hs : HeaderList) (v : String)
    (hv : headersGet hs "API-Key" = some v) (hne : v ≠ "") :
    headersGet (moveApiKey hs) "X-API-Key" = some v
    ∧ headersGet (moveApiKey hs) "API-Key" = none := by
  have hm : moveApiKey hs = headersSet (headersDelete hs "API-Key") "X-API-Key" v := by
    unfold moveApiKey
    rw [hv]
    simp [hne]
  rw [hm]
  unfold headersSet
  constructor
  · rw [headersGet_append_right _ _ _ (headersGet_delete_self _ "X-API-Key")]
    simp [headersGet]
  · have h1 : headersGet (headersDelete (headersDelete hs "API-Key") "X-API-Key")
        "API-Key" = none := by
      rw [headersGet_delete_ne _ "API-Key" "X-API-Key" (by decide)]
      exact headersGet_delete_self hs "API-Key"
    rw [headersGet_append_right _ _ _ h1]
    simp [headersGet]

/-- Quote-escaped text parses back to the original, consuming exactly up
to the closing quote. -/
theorem parseQuoted_escQuotes : ∀ (f rest : List Char),
    rest.head? ≠ some '\"' →
    parseQuoted (escQuotes f ++ '\"' :: rest) = (f, rest)
  | [], rest, h => by
    simp only [escQuotes, List.nil_append]
    match rest with
    | [] => simp [parseQuoted]
    | c2 :: rest2 =>
      have hc2 : ¬ c2 = '\"' := by
        intro he
        exact h (by rw [he]; rfl)
      simp [parseQuoted, hc2]
  | c :: t, rest, h => by
    by_cases hc : c = '\"'
    · subst hc
      have ih := parseQuoted_escQuotes t rest h
      simp only [escQuotes, if_pos rfl, List.cons_append]
      simp [parseQuoted, ih]
    · have ih := parseQuoted_escQuotes t rest h
      simp only [escQuotes, if_neg hc, List.cons_append]
      rw [parseQuoted.eq_def]
      simp [hc, ih]

/-- Comma-free text parses back unquoted, stopping at the separator. -/
theorem parseUnquoted_no_comma : ∀ (f rest : List Char),
    (∀ c ∈ f, c ≠ ',') → (rest = [] ∨ rest.head? = some ',') →
    parseUnquoted (f ++ rest) = (f, rest)
  | [], rest, _, hr => by
    rcases hr with hr | hr
    · subst hr; simp [parseUnquoted]
    · match rest with
      | c :: t =>
        have hc : c = ',' := by
          simpa using hr
        simp [parseUnquoted, hc]
  | c :: t, rest, hf, hr => by
    have hc : c ≠ ',' := hf c (List.mem_cons_self c t)
    have ih := parseUnquoted_no_comma t rest
      (fun c hm => hf c (List.mem_cons_of_mem _ hm)) hr
    simp only [List.cons_append]
    rw [parseUnquoted.eq_def]
    simp [hc, ih]

/-- One encoded field followed by a separator or the end of line parses
back to the original field. -/
theorem parseField_encodeField (f rest : List Char)
    (hr : rest = [] ∨ rest.head? = some ',') :
    parseField (encodeField f ++ rest) = (f, rest) := by
  by_cases hq : needsQuote f
  · have hhead : rest.head? ≠ some '\"' := by
      rcases hr with hr | hr
      · subst hr; simp
      · rw [hr]; decide
    simp only [encodeField, if_pos hq, List.cons_append, List.append_assoc,
      List.cons_append, List.nil_append]
    rw [parseField.eq_def]
    simp only [if_pos rfl]
    exact parseQuoted_escQuotes f rest hhead
  · have hflat : ∀ c ∈ f, ¬ (c = '\"' ∨ c = ',' ∨ c = '\n') := by
      intro c hm
      intro hor
      apply absurd hq
      simp only [not_not]
      unfold needsQuote
      rw [List.any_eq_true]
      exact ⟨c, hm, by simpa using hor⟩
    simp only [encodeField, if_neg hq]
    match f with
    | [] =>
      rcases hr with hrr | hrr
      · subst hrr; simp [parseField]
      · match rest with
        | c :: t =>
          have hc : c = ',' := by simpa using hrr
          subst hc
          simp [parseField, parseUnquoted]
    | c :: t =>
      have hc : ¬ c = '\"' := by
        intro he
        exact hflat c (List.mem_cons_self c t) (Or.inl he)
      have hcomma : ∀ x ∈ c :: t, x ≠ ',' := by
        intro x hx he
        exact hflat x hx (Or.inr (Or.inl he))
      simp only [List.cons_append]
      rw [parseField.eq_def]
      simp only [if_neg hc]
      have := parseUnquoted_no_comma (c :: t) rest hcomma hr
      simpa using this

/-- A whole encoded row parses back to its fields. -/
theorem parseLine_encodeRow : ∀ fs : List (List Char), fs ≠ [] →
    parseLine (encodeRow fs) = fs
  | [f], _ => by
    have hp : parseField (encodeField f ++ []) = (f, []) :=
      parseField_encodeField f [] (Or.inl rfl)
    rw [List.append_nil] at hp
    rw [parseLine.eq_def]
    simp only [encodeRow]
    split
    · next rest h =>
        rw [hp] at h
        simp at h
    · rw [hp]
    · next head tail h =>
        rw [hp] at h
        simp at h
  | f :: g :: t, _ => by
    have hp : parseField (encodeField f ++ ',' :: encodeRow (g :: t))
        = (f, ',' :: encodeRow (g :: t)) :=
      parseField_encodeField f (',' :: encodeRow (g :: t)) (Or.inr rfl)
    have ih := parseLine_encodeRow (g :: t) (by simp)
    rw [parseLine.eq_def]
    simp only [encodeRow]
    split
    · next rest h =>
        rw [hp] at h
        simp only [Prod.snd] at h
        have hr : encodeRow (g :: t) = rest := by
          exact (List.cons.injEq _ _ _ _).mp h |>.2
        rw [hp]
        show f :: parseLine rest = f :: g :: t
        rw [← hr, ih]
    · next h =>
        rw [hp] at h
        simp at h
    · next head tail h h2 =>
        rw [hp] at h2
        simp only [Prod.snd] at h2
        have hh : head = ',' :=
          ((List.cons.injEq ',' (encodeRow (g :: t)) head tail).mp h2).1.symm
        exact absurd hh h

/-- Claim C1, counterexample to the original statement: a chain whose
page 0 succeeds with one qualifying row and whose page 1 throws
(a timeout) has the row in its accumulation map at the moment of the
failure, yet the final result list of the run is empty - the partial
rows are NOT included, because the map is flattened into `allResults`
only on the success path of `crawlOneChain`. -/
theorem c1_partial_rows_dropped_counterexample :
    (runCrawlerFinal ["bitcoin"]
        (fun _ j => if j = 0
          then Except.ok [⟨some ⟨"bc1xyz", "bitcoin", some "Acme", some "Hot Wallet"⟩, none⟩]
          else Except.error "timeout") "Acme" 2).allResults = []
    ∧ (crawlOneChain
        (fun j => if j = 0
          then Except.ok [⟨some ⟨"bc1xyz", "bitcoin", some "Acme", some "Hot Wallet"⟩, none⟩]
          else Except.error "timeout") "Acme" 2).merged
      = [("bc1xyz@bitcoin",
          ⟨"bitcoin", "bc1xyz", "https://intel.arkm.com/explorer/address/bc1xyz", "Hot Wallet"⟩)]
    ∧ (crawlOneChain
        (fun j => if j = 0
          then Except.ok [⟨some ⟨"bc1xyz", "bitcoin", some "Acme", some "Hot Wallet"⟩, none⟩]
          else Except.error "timeout") "Acme" 2).status = ChainStatus.failed "timeout"
    ∧ (runCrawlerFinal ["bitcoin"]
        (fun _ j => if j = 0
          then Except.ok [⟨some ⟨"bc1xyz", "bitcoin", some "Acme", some "Hot Wallet"⟩, none⟩]
          else Except.error "timeout") "Acme" 2).completedChains = 1 := by
  refine ⟨by decide, by decide, by decide, by decide⟩

/-- Claim C1 (amended): an exception thrown inside the per-page loop is
caught at the chain-crawl boundary (the chain ends in a `failed` status
recording the message, nothing propagates), `completedChains` still
reaches `totalChains`, and the run result is the concatenation of the
per-chain pushed rows - but a failed chain pushes NOTHING, so the rows
already accumulated in its map before the failure are not included in
the final result list (they were only streamed to the incremental
display). -/
theorem c1_failure_isolated_rows_dropped
    (fetch : Nat → Except String (List Transfer)) (n : String) (pages : Nat)
    (msg : String) (h : (crawlPages fetch n pages).err = some msg) :
    (crawlOneChain fetch n pages).status = ChainStatus.failed msg
    ∧ (crawlOneChain fetch n pages).pushed = []
    ∧ (∀ (chains : List String)
        (fetchFor : String → Nat → Except String (List Transfer)),
        (runCrawlerFinal chains fetchFor n pages).completedChains
          = (runCrawlerFinal chains fetchFor n pages).totalChains
        ∧ (runCrawlerFinal chains fetchFor n pages).allResults
          = (chains.map (fun c => (crawlOneChain (fetchFor c) n pages).pushed)).flatten) := by
  refine ⟨?_, ?_, ?_⟩
  · simp [crawlOneChain, h]
  · simp [crawlOneChain, h]
  · intro chains fetchFor
    constructor
    · simp [runCrawlerFinal]
    · simp [runCrawlerFinal, List.map_map]
      rfl

/-- Witness for C1 (amended) at the concrete failing chain of the
counterexample scenario. -/
theorem c1_failure_isolated_rows_dropped_witness :
    (crawlOneChain
        (fun j => if j = 0
          then Except.ok [⟨some ⟨"w1", "tron", some "Acme", some "Hot Wallet"⟩, none⟩]
          else Except.error "HTTP 500") "Acme" 3).status = ChainStatus.failed "HTTP 500"
    ∧ (crawlOneChain
        (fun j => if j = 0
          then Except.ok [⟨some ⟨"w1", "tron", some "Acme", some "Hot Wallet"⟩, none⟩]
          else Except.error "HTTP 500") "Acme" 3).pushed = [] := by
  have h := c1_failure_isolated_rows_dropped
    (fun j => if j = 0
      then Except.ok [⟨some ⟨"w1", "tron", some "Acme", some "Hot Wallet"⟩, none⟩]
      else Except.error "HTTP 500") "Acme" 3 "HTTP 500" (by decide)
  exact ⟨h.1, h.2.1⟩

/-- Claim C2, code-bug evaluation: with the orchestrator ceiling of 3 and
five items whose workers are still pending, the synchronous start phase
of `mapWithConcurrency` alone already has FIVE workers in flight - each
starter begins a task before checking the limit, and the first starter
recurses past the check while the pool is below the limit, so up to
2 times limit minus 1 workers run concurrently. -/
theorem c2_concurrency_limit_exceeded :
    (mwcStart Nat [10, 20, 30, 40, 50] 3).running = [0, 1, 2, 3, 4]
    ∧ 3 < (mwcStart Nat [10, 20, 30, 40, 50] 3).running.length
    ∧ (mwcStart Nat [10, 20, 30, 40, 50] 3).waiters
      = [[0, 1, 2], [0, 1, 2, 3], [0, 1, 2, 3, 4]] := by
  refine ⟨by decide, by decide, by decide⟩

/-- Claim C3: `extractHotWallet` inserts a row exactly when the owning
entity name equals the target and the label is the exact string
"Hot Wallet"; any other input (absent info object, missing or
non-matching names) leaves the map untouched, and the function is total
so no error is possible. -/
theorem c3_extract_iff (info : Option AddrInfo) (m : JsMap) (n : String) :
    (∀ a, info = some a → a.entityName = some n →
      a.labelName = some "Hot Wallet" →
      extractHotWallet info m n
        = insertJs m (a.address ++ "@" ++ a.chain)
            ⟨a.chain, a.address, arkmUrl a.address, "Hot Wallet"⟩)
    ∧ ((∀ a, info = some a →
        ¬(a.entityName = some n ∧ a.labelName = some "Hot Wallet")) →
      extractHotWallet info m n = m) := by
  constructor
  · intro a ha h1 h2
    subst ha
    simp [extractHotWallet, h1, h2]
  · intro hno
    match info with
    | none => rfl
    | some a =>
      have hn := hno a rfl
      simp [extractHotWallet, hn]

/-- Witness for C3: a qualifying record is inserted under its
`address@chain` key; a record with the wrong entity name inserts
nothing. -/
theorem c3_extract_iff_witness :
    extractHotWallet (some ⟨"addr1", "ethereum", some "Acme", some "Hot Wallet"⟩)
        [] "Acme"
      = [("addr1@ethereum",
          ⟨"ethereum", "addr1", "https://intel.arkm.com/explorer/address/addr1", "Hot Wallet"⟩)]
    ∧ extractHotWallet (some ⟨"addr1", "ethereum", some "Other", some "Hot Wallet"⟩)
        [] "Acme" = [] := by
  constructor
  · have h := (c3_extract_iff
      (some ⟨"addr1", "ethereum", some "Acme", some "Hot Wallet"⟩) [] "Acme").1
      ⟨"addr1", "ethereum", some "Acme", some "Hot Wallet"⟩ rfl rfl rfl
    rw [h]
    decide
  · have h := (c3_extract_iff
      (some ⟨"addr1", "ethereum", some "Other", some "Hot Wallet"⟩) [] "Acme").2
      (by
        intro a ha
        injection ha with ha
        subst ha
        simp)
    exact h

/-- Claim C4: when page `e` is the first page with zero transfer records,
the chain advances progress by 1 for each of the `e` non-empty pages and
by `pages - e` on the empty page and stops, so its total contribution is
exactly `pages`; moreover any chain contributes at most `pages`, so
`completedPages` never exceeds `totalPages` at run level. -/
theorem c4_pagination_progress
    (fetch : Nat → Except String (List Transfer)) (n : String) (pages e : Nat)
    (he : e < pages)
    (hne : ∀ j, j < e → ∃ ts, fetch j = Except.ok ts ∧ ts ≠ [])
    (hempty : fetch e = Except.ok []) :
    (crawlPages fetch n pages).trace = List.replicate e 1 ++ [pages - e]
    ∧ (crawlPages fetch n pages).trace.sum = pages
    ∧ (∀ fetch2 : Nat → Except String (List Transfer),
        (crawlPages fetch2 n pages).trace.sum ≤ pages)
    ∧ (∀ (chains : List String)
        (fetchFor : String → Nat → Except String (List Transfer)),
        (runCrawlerFinal chains fetchFor n pages).completedPages
          ≤ (runCrawlerFinal chains fetchFor n pages).totalPages) := by
  have htr : (crawlPages fetch n pages).trace
      = List.replicate e 1 ++ [pages - e] := by
    unfold crawlPages
    rw [List.range_eq_range' pages]
    have h := crawlLoop_trace_exhaust fetch n pages e he hne hempty pages 0 []
      (by omega) (by omega)
    simpa using h
  refine ⟨htr, ?_, ?_, ?_⟩
  · rw [htr]
    simp [List.sum_replicate]
    omega
  · intro fetch2
    exact crawlPages_trace_sum_le fetch2 n pages
  · intro chains fetchFor
    show ((chains.map (fun c => crawlOneChain (fetchFor c) n pages)).map
        (fun r => r.trace.sum)).sum ≤ chains.length * pages
    have hb : ∀ x ∈ (chains.map (fun c => crawlOneChain (fetchFor c) n pages)).map
        (fun r => r.trace.sum), x ≤ pages := by
      intro x hx
      obtain ⟨r, hr, rfl⟩ := List.mem_map.mp hx
      obtain ⟨c, _, rfl⟩ := List.mem_map.mp hr
      rw [crawlOneChain_trace]
      exact crawlPages_trace_sum_le _ n pages
    have hs := sum_le_length_mul _ pages hb
    simpa using hs

/-- Witness for C4 at the concrete scenario of the specification: three
configured pages, records on page 0, zero records on page 1 - the
progress trace is exactly [1, 2] and sums to 3. -/
theorem c4_pagination_progress_witness :
    (crawlPages
        (fun j => if j = 0
          then Except.ok [⟨none, some ⟨"a", "bitcoin", some "E", some "Hot Wallet"⟩⟩]
          else Except.ok []) "E" 3).trace = [1, 2]
    ∧ (crawlPages
        (fun j => if j = 0
          then Except.ok [⟨none, some ⟨"a", "bitcoin", some "E", some "Hot Wallet"⟩⟩]
          else Except.ok []) "E" 3).trace.sum = 3 := by
  have h := c4_pagination_progress
    (fun j => if j = 0
      then Except.ok [⟨none, some ⟨"a", "bitcoin", some "E", some "Hot Wallet"⟩⟩]
      else Except.ok []) "E" 3 1 (by decide)
    (by
      intro j hj
      have hj0 : j = 0 := by omega
      subst hj0
      exact ⟨[⟨none, some ⟨"a", "bitcoin", some "E", some "Hot Wallet"⟩⟩], rfl,
        by decide⟩)
    rfl
  exact ⟨by rw [h.1]; decide, h.2.1⟩

/-- Claim C5: the transport tries the request directly first and returns
any settled response as is (HTTP error statuses included, with no
retry); a network-level rejection falls back to exactly one proxy
attempt if and only if a truthy proxy base is configured and parses
into a forwarding URL, which embeds the original target as the `url`
query parameter and carries the headers with `API-Key` migrated to
`X-API-Key`; with no usable proxy the original error propagates, and
the outcome of the proxy attempt itself is returned otherwise. -/
theorem c5_transport_proxy_fallback
    (net : Net) (parseUrl : String → Option UrlObj) (render : UrlObj → String)
    (url : String) (hs : HeaderList) (proxy : Option String) :
    (∀ r, net url hs = NetOutcome.ok r →
      fetchWithProxyFirst net parseUrl render url hs proxy
        = ⟨Except.ok r, [(url, hs)]⟩)
    ∧ (∀ e, net url hs = NetOutcome.fail e → (proxy = none ∨ proxy = some "") →
      fetchWithProxyFirst net parseUrl render url hs proxy
        = ⟨Except.error e, [(url, hs)]⟩)
    ∧ (∀ e p, net url hs = NetOutcome.fail e → proxy = some p → p ≠ "" →
        parseUrl p = none →
      fetchWithProxyFirst net parseUrl render url hs proxy
        = ⟨Except.error e, [(url, hs)]⟩)
    ∧ (∀ e p u, net url hs = NetOutcome.fail e → proxy = some p → p ≠ "" →
        parseUrl p = some u →
      (fetchWithProxyFirst net parseUrl render url hs proxy).requests
        = [(url, hs), (render (u.setParam "url" url), moveApiKey hs)]
      ∧ (∀ r2, net (render (u.setParam "url" url)) (moveApiKey hs)
            = NetOutcome.ok r2 →
          (fetchWithProxyFirst net parseUrl render url hs proxy).result
            = Except.ok r2)
      ∧ (∀ e2, net (render (u.setParam "url" url)) (moveApiKey hs)
            = NetOutcome.fail e2 →
          (fetchWithProxyFirst net parseUrl render url hs proxy).result
            = Except.error e2))
    ∧ (∀ v, headersGet hs "API-Key" = some v → v ≠ "" →
        headersGet (moveApiKey hs) "X-API-Key" = some v
        ∧ headersGet (moveApiKey hs) "API-Key" = none) := by
  refine ⟨?_, ?_, ?_, ?_, ?_⟩
  · intro r h
    simp [fetchWithProxyFirst, h]
  · intro e h hp
    rcases hp with hp | hp <;> subst hp <;> simp [fetchWithProxyFirst, h]
  · intro e p h hp hpne hparse
    subst hp
    simp [fetchWithProxyFirst, h, hpne, buildProxyUrl, hparse]
  · intro e p u h hp hpne hu
    subst hp
    refine ⟨?_, ?_, ?_⟩
    · rcases hnet2 : net (render (u.setParam "url" url)) (moveApiKey hs)
        with r2 | e2 <;>
        simp [fetchWithProxyFirst, h, hpne, buildProxyUrl, hu, hnet2]
    · intro r2 h2
      simp [fetchWithProxyFirst, h, hpne, buildProxyUrl, hu, h2]
    · intro e2 h2
      simp [fetchWithProxyFirst, h, hpne, buildProxyUrl, hu, h2]
  · intro v hv hne
    exact moveApiKey_spec hs v hv hne

/-- Witness for C5: a direct 404 is returned with no proxy request; a
direct network failure with a configured parsing proxy issues exactly
one proxied request carrying the target in the `url` parameter and the
migrated credential header; a failure with no proxy propagates. -/
theorem c5_transport_proxy_fallback_witness :
    fetchWithProxyFirst (fun _ _ => NetOutcome.ok ⟨404⟩) (fun _ => none)
        (fun u => u.base) "https://t" [("API-Key", "k")] (some "https://p")
      = ⟨Except.ok ⟨404⟩, [("https://t", [("API-Key", "k")])]⟩
    ∧ (fetchWithProxyFirst
        (fun u _ => if u = "https://t" then NetOutcome.fail "neterr"
          else NetOutcome.ok ⟨200⟩)
        (fun s => if s = "https://p" then some ⟨"https://p", []⟩ else none)
        (fun u => u.base ++ "?" ++ String.intercalate "&"
          (u.params.map (fun p => p.1 ++ "=" ++ p.2)))
        "https://t" [("API-Key", "k")] (some "https://p")).requests
      = [("https://t", [("API-Key", "k")]),
         ("https://p?url=https://t", [("X-API-Key", "k")])]
    ∧ (fetchWithProxyFirst (fun _ _ => NetOutcome.fail "neterr") (fun _ => none)
        (fun u => u.base) "https://t" [] none).result = Except.error "neterr" := by
  refine ⟨?_, ?_, ?_⟩
  · exact (c5_transport_proxy_fallback (fun _ _ => NetOutcome.ok ⟨404⟩)
      (fun _ => none) (fun u => u.base) "https://t" [("API-Key", "k")]
      (some "https://p")).1 ⟨404⟩ rfl
  · have h := (c5_transport_proxy_fallback
      (fun u _ => if u = "https://t" then NetOutcome.fail "neterr"
        else NetOutcome.ok ⟨200⟩)
      (fun s => if s = "https://p" then some ⟨"https://p", []⟩ else none)
      (fun u => u.base ++ "?" ++ String.intercalate "&"
        (u.params.map (fun p => p.1 ++ "=" ++ p.2)))
      "https://t" [("API-Key", "k")] (some "https://p")).2.2.2.1
      "neterr" "https://p" ⟨"https://p", []⟩ (by decide) rfl (by decide) (by decide)
    rw [h.1]
    decide
  · have h := (c5_transport_proxy_fallback (fun _ _ => NetOutcome.fail "neterr")
      (fun _ => none) (fun u => u.base) "https://t" [] none).2.1
      "neterr" rfl (Or.inl rfl)
    rw [h]

/-- Claim C6: after a page grows the accumulation map by `d` new keys,
the emitted incremental event (the `slice(-deltaNew)` of the value
list) is exactly the value list of the `d` entries appended for the new
keys: the leading entries keep precisely the pre-existing keys (even if
their values were overwritten in place) and every appended entry
carries a key the map did not have before the page. -/
theorem c6_incremental_event_new_rows
    (merged : JsMap) (ts : List Transfer) (n : String)
    (h : 0 < (processTransfers merged ts n).length - merged.length) :
    keysJs ((processTransfers merged ts n).take merged.length) = keysJs merged
    ∧ (∀ p ∈ (processTransfers merged ts n).drop merged.length,
        p.1 ∉ keysJs merged)
    ∧ pageEvent merged.length (processTransfers merged ts n)
        = valuesJs ((processTransfers merged ts n).drop merged.length)
    ∧ ((processTransfers merged ts n).drop merged.length).length
        = (processTransfers merged ts n).length - merged.length :=
  mapExt_facts merged _
    (mapExt_processTransfers merged n ts merged (mapExt_refl merged))

/-- Witness for C6: a page adding one new key next to one pre-existing
key emits exactly the one new row. -/
theorem c6_incremental_event_new_rows_witness :
    pageEvent [("a@c", (⟨"c", "a", "u", "Hot Wallet"⟩ : Row))].length
        (processTransfers [("a@c", ⟨"c", "a", "u", "Hot Wallet"⟩)]
          [⟨some ⟨"b", "c", some "E", some "Hot Wallet"⟩, none⟩] "E")
      = [⟨"c", "b", "https://intel.arkm.com/explorer/address/b", "Hot Wallet"⟩]
    ∧ 0 < (processTransfers [("a@c", ⟨"c", "a", "u", "Hot Wallet"⟩)]
          [⟨some ⟨"b", "c", some "E", some "Hot Wallet"⟩, none⟩] "E").length
        - [("a@c", (⟨"c", "a", "u", "Hot Wallet"⟩ : Row))].length := by
  have h := c6_incremental_event_new_rows
    [("a@c", ⟨"c", "a", "u", "Hot Wallet"⟩)]
    [⟨some ⟨"b", "c", some "E", some "Hot Wallet"⟩, none⟩] "E" (by decide)
  exact ⟨by rw [h.2.2.1]; decide, by decide⟩

/-- Claim C7, code-bug evaluation: the promise of `mapWithConcurrency`
resolves once every starter has bottomed out, which can happen while
workers are still in flight - here, with one item and limit 2, the
single starter never waits, so the call resolves with the result array
still holding a hole at slot 0; only when the worker later settles is
the slot filled with its result. -/
theorem c7_results_hole_on_resolution :
    mwcResolved (mwcStart Nat [42] 2) = true
    ∧ (mwcStart Nat [42] 2).results = [none]
    ∧ (mwcStart Nat [42] 2).running = [0]
    ∧ (completeTask (fun t => t + 100) (mwcStart Nat [42] 2) 0).results
      = [some 100] := by
  refine ⟨by decide, by decide, by decide, by decide⟩

/-- Claim C8: the accumulation map of one chain never holds two entries with
the same `address@chain` key under any sequence of extractions, and a
second insertion under an existing key replaces the stored row (last
write wins). -/
theorem c8_dedup_last_write_wins :
    (∀ (ops : List (Option AddrInfo)) (n : String),
      (keysJs (applyInserts ops n)).Nodup)
    ∧ (∀ (m : JsMap) (k : String) (a b : Row),
      lookupJs (insertJs (insertJs m k a) k b) k = some b) := by
  constructor
  · intro ops n
    exact nodup_keysJs_foldl ops [] n (by simp [keysJs])
  · intro m k a b
    exact lookupJs_insertJs_self (insertJs m k a) k b

/-- Claim C9: `toCSV` emits the fixed header line followed by one encoded
line per row, and the quoting scheme (wrap on comma, quote or newline;
double internal quotes) is lossless: parsing the encoded line of any
row recovers the four field values exactly. -/
theorem c9_csv_roundtrip :
    (∀ r : Row, parseCsvLine (rowLine r)
      = [r.chain, r.address, r.arkm_url, r.label])
    ∧ (∀ rows : List Row,
      toCSV rows = String.mk (List.intercalate ['\n']
        ("chain,address,arkm_url,label".data
          :: rows.map (fun r => (rowLine r).data)))) := by
  constructor
  · intro r
    unfold parseCsvLine rowLine
    show (parseLine (encodeRow (rowFields r))).map String.mk
      = [r.chain, r.address, r.arkm_url, r.label]
    rw [parseLine_encodeRow (rowFields r) (by simp [rowFields])]
    show [String.mk r.chain.data, String.mk r.address.data,
      String.mk r.arkm_url.data, String.mk r.label.data]
      = [r.chain, r.address, r.arkm_url, r.label]
    rfl
  · intro rows
    rfl

/-- Claim C10: the sanitized page size always lies in [1, 1000] and the
sanitized page count in [1, 10], with non-numeric (NaN) and falsy zero
(empty input) values falling back to the defaults 500 and 3. -/
theorem c10_input_clamping (v w : JsNum) :
    1 ≤ initLimit v ∧ initLimit v ≤ 1000
    ∧ 1 ≤ initPages w ∧ initPages w ≤ 10
    ∧ initLimit JsNum.nan = 500 ∧ initPages JsNum.nan = 3
    ∧ initLimit (JsNum.int 0) = 500 ∧ initPages (JsNum.int 0) = 3 := by
  have hgen : ∀ (x b : Int), 1 ≤ b →
      1 ≤ max 1 (min b x) ∧ max 1 (min b x) ≤ b := by
    intro x b hb
    exact ⟨le_max_left _ _, max_le hb (min_le_left _ _)⟩
  refine ⟨(hgen _ 1000 (by norm_num)).1, (hgen _ 1000 (by norm_num)).2,
    (hgen _ 10 (by norm_num)).1, (hgen _ 10 (by norm_num)).2,
    by decide, by decide, by decide, by decide⟩

end HotWallet
